import Mathlib

/-!
Shallow embedding of the adsorption-site enumeration routines of the
repository (notebook `site_recongnition.ipynb`): the surface partition,
the bridge-site, 3-fold hollow and 4-fold hollow enumerations over a
precomputed neighbor graph, together with proofs of the specified
properties.
-/

/-- An atomic structure as consumed by the site finder: a coordination
number per atom and a neighbor list per atom, index-aligned. -/
structure NPSystem where
  coordination : List Nat
  neighbors : List (List Nat)

/-- Python's `sorted` on a list of indices: ascending order. -/
def sortList (l : List Nat) : List Nat :=
  l.insertionSort (fun a b => a ≤ b)

/-- `np.intersect1d`: the sorted, unique common elements of two arrays. -/
def intersect1d (u v : List Nat) : List Nat :=
  sortList (u.dedup.filter (fun x => decide (x ∈ v)))

/-- `system.neighbor_dict[i]` (empty for an out-of-range index). -/
def neighbors_of (s : NPSystem) (i : Nat) : List Nat :=
  s.neighbors.getD i []

/-- `np.where(coordination_list < 12)[0]`: the indices whose coordination
number is strictly below the bulk constant 12, in ascending order. -/
def surface_indices (s : NPSystem) : List Nat :=
  (List.range s.coordination.length).filter (fun i => decide (s.coordination.getD i 0 < 12))

/-- The entry of `surface_neighbors_dict` built by `get_surface_neighbors`:
the neighbors of `i` that are themselves surface atoms, in neighbor-list
order. -/
def surface_neighbors (s : NPSystem) (i : Nat) : List Nat :=
  (neighbors_of s i).filter (fun n => decide (n ∈ surface_indices s))

/-- The entry of `subsurface_neighbors_dict` built by
`get_surface_neighbors`: the neighbors of `i` that are not surface atoms,
in neighbor-list order. -/
def subsurface_neighbors (s : NPSystem) (i : Nat) : List Nat :=
  (neighbors_of s i).filter (fun n => decide (n ∉ surface_indices s))

/-- `get_brige_site_indices`: for each surface atom `a` (ascending), each
sorted surface-neighbor `b` with `b > a` contributes the pair `(a, b)`. -/
def get_brige_site_indices (s : NPSystem) : List (Nat × Nat) :=
  (surface_indices s).flatMap (fun a =>
    ((sortList (surface_neighbors s a)).filter (fun b => decide (a < b))).map (fun b => (a, b)))

/-- Python's `if x not in acc: acc.append(x)` step. -/
def add_if_new (acc : List (List Nat)) (x : List Nat) : List (List Nat) :=
  if x ∈ acc then acc else acc ++ [x]

/-- `get_hollow_site_indices`: for each bridge pair, every common surface
neighbor yields a sorted triple, appended if not already present. -/
def get_hollow_site_indices (s : NPSystem) : List (List Nat) :=
  (get_brige_site_indices s).foldl
    (fun acc p =>
      (intersect1d (surface_neighbors s p.1) (surface_neighbors s p.2)).foldl
        (fun acc2 c => add_if_new acc2 (sortList [p.1, p.2, c])) acc)
    []

/-- All pairs `(l[i], y)` with `y` drawn from `l[i+1:]`, in enumeration
order, as produced by `for i, x in enumerate(l): for y in l[i+1:]`. -/
def pairsAfter {α : Type} : List α → List (α × α)
  | [] => []
  | x :: xs => (xs.map (fun y => (x, y))) ++ pairsAfter xs

/-- The body of the double loop of `get_four_fold_hollow_site` for the
pair of bridge sites `pq`: skip when the two bridges share an atom;
accept when each endpoint of the first bridge has exactly one
surface-neighbor inside the second bridge and those two differ; record
the sorted quadruple if not already present. -/
def fourfold_step (s : NPSystem) (acc : List (List Nat))
    (pq : (Nat × Nat) × (Nat × Nat)) : List (List Nat) :=
  if (intersect1d [pq.1.1, pq.1.2] [pq.2.1, pq.2.2]).length = 0 then
    let check_a := intersect1d (surface_neighbors s pq.1.1) [pq.2.1, pq.2.2]
    let check_b := intersect1d (surface_neighbors s pq.1.2) [pq.2.1, pq.2.2]
    if check_a.length = 1 ∧ check_b.length = 1 then
      if check_a ≠ check_b then
        add_if_new acc (sortList [pq.1.1, pq.1.2, pq.2.1, pq.2.2])
      else acc
    else acc
  else acc

/-- `get_four_fold_hollow_site`: scan the ordered pairs of distinct
bridge sites, in enumeration order, through `fourfold_step`. -/
def get_four_fold_hollow_site (s : NPSystem) : List (List Nat) :=
  (pairsAfter (get_brige_site_indices s)).foldl (fourfold_step s) []

/-- Well-formed input per the data model: the neighbor relation is
symmetric. -/
def symmetricNbrs (s : NPSystem) : Prop :=
  ∀ i < s.neighbors.length, ∀ j ∈ neighbors_of s i, i ∈ neighbors_of s j

/-- Well-formed input per the data model: each atom's neighbors form a
set, i.e. the neighbor list has no duplicates. -/
def nodupNbrs (s : NPSystem) : Prop :=
  ∀ l ∈ s.neighbors, l.Nodup

/-- Well-formed input per the data model: no atom is its own neighbor. -/
def irreflNbrs (s : NPSystem) : Prop :=
  ∀ i < s.neighbors.length, i ∉ neighbors_of s i

instance (s : NPSystem) : Decidable (symmetricNbrs s) := by
  unfold symmetricNbrs; infer_instance

instance (s : NPSystem) : Decidable (nodupNbrs s) := by
  unfold nodupNbrs; infer_instance

instance (s : NPSystem) : Decidable (irreflNbrs s) := by
  unfold irreflNbrs; infer_instance

/-- Two atoms that are mutually surface neighbors: both are surface atoms
and each lists the other among its surface neighbors. -/
def mutualSurfaceNeighbors (s : NPSystem) (a b : Nat) : Prop :=
  a ∈ surface_indices s ∧ b ∈ surface_indices s ∧
    b ∈ surface_neighbors s a ∧ a ∈ surface_neighbors s b

instance (s : NPSystem) (a b : Nat) : Decidable (mutualSurfaceNeighbors s a b) := by
  unfold mutualSurfaceNeighbors; infer_instance

/-- The 4-fold acceptance condition as the spec words it: each of `a`, `b`
is a surface-neighbor of exactly one of `{c, d}`, and not of the same
one. -/
def acceptFourFold (s : NPSystem) (a b c d : Nat) : Prop :=
  (c ∈ surface_neighbors s a ∧ d ∉ surface_neighbors s a ∧
    d ∈ surface_neighbors s b ∧ c ∉ surface_neighbors s b) ∨
  (d ∈ surface_neighbors s a ∧ c ∉ surface_neighbors s a ∧
    c ∈ surface_neighbors s b ∧ d ∉ surface_neighbors s b)

/-- The minimal triangular facet: three mutually neighboring
undercoordinated atoms. -/
def triangleSystem : NPSystem :=
  { coordination := [3, 3, 3]
    neighbors := [[1, 2], [0, 2], [0, 1]] }

/-- The minimal square facet: a 4-cycle of undercoordinated atoms with no
diagonal bonds. -/
def squareSystem : NPSystem :=
  { coordination := [2, 2, 2, 2]
    neighbors := [[1, 3], [0, 2], [1, 3], [0, 2]] }

/-- A fully coordinated (bulk-only) structure. -/
def bulkSystem : NPSystem :=
  { coordination := [12, 13]
    neighbors := [[1], [0]] }

theorem sortList_perm (l : List Nat) : (sortList l).Perm l :=
  List.perm_insertionSort _ l

theorem mem_sortList {x : Nat} {l : List Nat} : x ∈ sortList l ↔ x ∈ l :=
  (sortList_perm l).mem_iff

theorem sortList_sorted (l : List Nat) : List.Sorted (fun a b : Nat => a ≤ b) (sortList l) :=
  List.sorted_insertionSort _ l

theorem nodup_sortList {l : List Nat} (h : l.Nodup) : (sortList l).Nodup :=
  (sortList_perm l).nodup_iff.mpr h

theorem mem_intersect1d {x : Nat} {u v : List Nat} :
    x ∈ intersect1d u v ↔ x ∈ u ∧ x ∈ v := by
  simp [intersect1d, mem_sortList, List.mem_filter, List.mem_dedup]

theorem nodup_intersect1d (u v : List Nat) : (intersect1d u v).Nodup :=
  nodup_sortList ((u.nodup_dedup).filter _)

theorem mem_neighbors_of_lt {s : NPSystem} {i j : Nat} (h : j ∈ neighbors_of s i) :
    i < s.neighbors.length := by
  by_contra hlt
  rw [neighbors_of, List.getD_eq_default _ _ (Nat.le_of_not_lt hlt)] at h
  exact absurd h (List.not_mem_nil j)

theorem symmetricNbrs_all {s : NPSystem} (h : symmetricNbrs s) :
    ∀ i j, j ∈ neighbors_of s i → i ∈ neighbors_of s j :=
  fun i j hj => h i (mem_neighbors_of_lt hj) j hj

theorem nodup_neighbors_of {s : NPSystem} (h : nodupNbrs s) (i : Nat) :
    (neighbors_of s i).Nodup := by
  by_cases hi : i < s.neighbors.length
  · exact h _ (by rw [neighbors_of, List.getD_eq_getElem _ _ hi]; exact s.neighbors.getElem_mem hi)
  · rw [neighbors_of, List.getD_eq_default _ _ (Nat.le_of_not_lt hi)]
    exact List.nodup_nil

theorem mem_surface_indices {s : NPSystem} {i : Nat} :
    i ∈ surface_indices s ↔ i < s.coordination.length ∧ s.coordination.getD i 0 < 12 := by
  simp [surface_indices, List.mem_filter, List.mem_range]

theorem nodup_surface_indices (s : NPSystem) : (surface_indices s).Nodup :=
  (List.nodup_range _).filter _

theorem mem_surface_neighbors {s : NPSystem} {i x : Nat} :
    x ∈ surface_neighbors s i ↔ x ∈ neighbors_of s i ∧ x ∈ surface_indices s := by
  simp [surface_neighbors, List.mem_filter]

theorem mem_subsurface_neighbors {s : NPSystem} {i x : Nat} :
    x ∈ subsurface_neighbors s i ↔ x ∈ neighbors_of s i ∧ x ∉ surface_indices s := by
  simp [subsurface_neighbors, List.mem_filter]

theorem nodup_surface_neighbors {s : NPSystem} (h : nodupNbrs s) (i : Nat) :
    (surface_neighbors s i).Nodup :=
  (nodup_neighbors_of h i).filter _

theorem mem_bridge {s : NPSystem} {a b : Nat} :
    (a, b) ∈ get_brige_site_indices s ↔
      a ∈ surface_indices s ∧ b ∈ surface_neighbors s a ∧ a < b := by
  simp only [get_brige_site_indices, List.mem_flatMap, List.mem_map, List.mem_filter,
    mem_sortList, decide_eq_true_eq, Prod.mk.injEq]
  constructor
  · rintro ⟨a', ha', b', ⟨⟨hb', hlt⟩, rfl, rfl⟩⟩
    exact ⟨ha', hb', hlt⟩
  · rintro ⟨ha, hb, hlt⟩
    exact ⟨a, ha, b, ⟨hb, hlt⟩, rfl, rfl⟩

theorem mem_add_if_new {acc : List (List Nat)} {x y : List Nat} :
    x ∈ add_if_new acc y ↔ x ∈ acc ∨ x = y := by
  unfold add_if_new
  by_cases h : y ∈ acc
  · simp only [if_pos h]
    constructor
    · exact Or.inl
    · rintro (hx | rfl)
      · exact hx
      · exact h
  · simp [if_neg h]

theorem nodup_add_if_new {acc : List (List Nat)} {y : List Nat} (h : acc.Nodup) :
    (add_if_new acc y).Nodup := by
  unfold add_if_new
  by_cases hy : y ∈ acc
  · simpa [if_pos hy]
  · rw [if_neg hy]
    simpa [List.nodup_append] using And.intro h hy

theorem mem_foldl_of_step {α β : Type} (step : List α → β → List α) (Q : β → α → Prop)
    (l : List β) (h : ∀ acc b, b ∈ l → ∀ x, x ∈ step acc b ↔ x ∈ acc ∨ Q b x) :
    ∀ acc x, x ∈ l.foldl step acc ↔ x ∈ acc ∨ ∃ b ∈ l, Q b x := by
  induction l with
  | nil => intro acc x; simp
  | cons b l ih =>
    intro acc x
    rw [List.foldl_cons,
      ih (fun acc' b' hb' => h acc' b' (List.mem_cons_of_mem b hb')),
      h acc b (List.mem_cons_self b l)]
    simp only [List.mem_cons]
    constructor
    · rintro ((hx | hq) | ⟨b', hb', hq⟩)
      · exact Or.inl hx
      · exact Or.inr ⟨b, Or.inl rfl, hq⟩
      · exact Or.inr ⟨b', Or.inr hb', hq⟩
    · rintro (hx | ⟨b', (rfl | hb'), hq⟩)
      · exact Or.inl (Or.inl hx)
      · exact Or.inl (Or.inr hq)
      · exact Or.inr ⟨b', hb', hq⟩

theorem nodup_foldl_of_step {α β : Type} (step : List α → β → List α)
    (h : ∀ acc b, acc.Nodup → (step acc b).Nodup) :
    ∀ (l : List β) (acc : List α), acc.Nodup → (l.foldl step acc).Nodup := by
  intro l
  induction l with
  | nil => intro acc hacc; simpa
  | cons b l ih => intro acc hacc; exact ih _ (h acc b hacc)

theorem intersect1d_eq_nil_iff {u v : List Nat} :
    intersect1d u v = [] ↔ ∀ x, ¬(x ∈ u ∧ x ∈ v) := by
  rw [List.eq_nil_iff_forall_not_mem]
  exact forall_congr' (fun x => not_congr mem_intersect1d)

theorem intersect1d_pair (u : List Nat) {c d : Nat} (hcd : c ≠ d) :
    intersect1d u [c, d] =
      if c ∈ u then (if d ∈ u then sortList [c, d] else [c])
      else (if d ∈ u then [d] else []) := by
  have hw : ∀ x, x ∈ u.dedup.filter (fun x => decide (x ∈ [c, d])) ↔
      x ∈ u ∧ (x = c ∨ x = d) := by
    intro x; simp [List.mem_filter, List.mem_dedup]
  have hwnd : (u.dedup.filter (fun x => decide (x ∈ [c, d]))).Nodup :=
    (u.nodup_dedup).filter _
  by_cases hc : c ∈ u <;> by_cases hd : d ∈ u
  · rw [if_pos hc, if_pos hd]
    have hperm : (u.dedup.filter (fun x => decide (x ∈ [c, d]))).Perm [c, d] := by
      refine (List.perm_ext_iff_of_nodup hwnd (by simp [hcd])).2 ?_
      intro x
      rw [hw x]
      constructor
      · rintro ⟨_, (rfl | rfl)⟩ <;> simp
      · intro hx
        simp only [List.mem_cons, List.not_mem_nil, or_false] at hx
        rcases hx with rfl | rfl
        · exact ⟨hc, Or.inl rfl⟩
        · exact ⟨hd, Or.inr rfl⟩
    exact List.eq_of_perm_of_sorted
      (((sortList_perm _).trans hperm).trans (sortList_perm [c, d]).symm)
      (sortList_sorted _) (sortList_sorted _)
  · rw [if_pos hc, if_neg hd]
    have hperm : (u.dedup.filter (fun x => decide (x ∈ [c, d]))).Perm [c] := by
      refine (List.perm_ext_iff_of_nodup hwnd (List.nodup_singleton c)).2 ?_
      intro x
      rw [hw x]
      simp only [List.mem_singleton]
      constructor
      · rintro ⟨hx, (rfl | rfl)⟩
        · rfl
        · exact absurd hx hd
      · rintro rfl; exact ⟨hc, Or.inl rfl⟩
    exact List.perm_singleton.mp ((sortList_perm _).trans hperm)
  · rw [if_neg hc, if_pos hd]
    have hperm : (u.dedup.filter (fun x => decide (x ∈ [c, d]))).Perm [d] := by
      refine (List.perm_ext_iff_of_nodup hwnd (List.nodup_singleton d)).2 ?_
      intro x
      rw [hw x]
      simp only [List.mem_singleton]
      constructor
      · rintro ⟨hx, (rfl | rfl)⟩
        · exact absurd hx hc
        · rfl
      · rintro rfl; exact ⟨hd, Or.inr rfl⟩
    exact List.perm_singleton.mp ((sortList_perm _).trans hperm)
  · rw [if_neg hc, if_neg hd]
    have hnil : u.dedup.filter (fun x => decide (x ∈ [c, d])) = [] := by
      rw [List.eq_nil_iff_forall_not_mem]
      intro x hx
      rcases (hw x).1 hx with ⟨hxu, (rfl | rfl)⟩
      exacts [hc hxu, hd hxu]
    unfold intersect1d
    rw [hnil]
    rfl

theorem length_sortList_pair (c d : Nat) : (sortList [c, d]).length = 2 :=
  (sortList_perm [c, d]).length_eq

theorem mem_pairsAfter {α : Type} {l : List α} {p q : α} :
    (p, q) ∈ pairsAfter l → p ∈ l ∧ q ∈ l := by
  induction l with
  | nil => intro h; exact absurd h (List.not_mem_nil _)
  | cons x xs ih =>
    intro h
    rw [pairsAfter] at h
    rcases List.mem_append.mp h with h1 | h2
    · obtain ⟨y, hy, heq⟩ := List.mem_map.mp h1
      obtain ⟨rfl, rfl⟩ := Prod.mk.injEq x y p q ▸ heq
      exact ⟨List.mem_cons_self x xs, List.mem_cons_of_mem x hy⟩
    · obtain ⟨hp, hq⟩ := ih h2
      exact ⟨List.mem_cons_of_mem x hp, List.mem_cons_of_mem x hq⟩

theorem bridge_lt {s : NPSystem} {a b : Nat} (h : (a, b) ∈ get_brige_site_indices s) :
    a < b :=
  (mem_bridge.mp h).2.2

theorem mem_hollow_iff {s : NPSystem} {t : List Nat} :
    t ∈ get_hollow_site_indices s ↔
      ∃ a b, (a, b) ∈ get_brige_site_indices s ∧
        ∃ c, c ∈ surface_neighbors s a ∧ c ∈ surface_neighbors s b ∧
          t = sortList [a, b, c] := by
  have hstep : ∀ (acc : List (List Nat)) (p : Nat × Nat),
      p ∈ get_brige_site_indices s → ∀ x,
      x ∈ (intersect1d (surface_neighbors s p.1) (surface_neighbors s p.2)).foldl
          (fun acc2 c => add_if_new acc2 (sortList [p.1, p.2, c])) acc ↔
        x ∈ acc ∨ ∃ c, c ∈ surface_neighbors s p.1 ∧ c ∈ surface_neighbors s p.2 ∧
          x = sortList [p.1, p.2, c] := by
    intro acc p _ x
    rw [mem_foldl_of_step _ (fun c x => x = sortList [p.1, p.2, c]) _
      (fun acc2 c _ x => mem_add_if_new) acc x]
    constructor
    · rintro (hx | ⟨c, hc, rfl⟩)
      · exact Or.inl hx
      · rcases mem_intersect1d.mp hc with ⟨h1, h2⟩
        exact Or.inr ⟨c, h1, h2, rfl⟩
    · rintro (hx | ⟨c, h1, h2, rfl⟩)
      · exact Or.inl hx
      · exact Or.inr ⟨c, mem_intersect1d.mpr ⟨h1, h2⟩, rfl⟩
  unfold get_hollow_site_indices
  rw [mem_foldl_of_step _ _ _ hstep [] t]
  simp only [List.not_mem_nil, false_or]
  constructor
  · rintro ⟨⟨a, b⟩, hp, c, h1, h2, rfl⟩
    exact ⟨a, b, hp, c, h1, h2, rfl⟩
  · rintro ⟨a, b, hp, c, h1, h2, rfl⟩
    exact ⟨(a, b), hp, c, h1, h2, rfl⟩

theorem nodup_hollow (s : NPSystem) : (get_hollow_site_indices s).Nodup := by
  unfold get_hollow_site_indices
  refine nodup_foldl_of_step _ ?_ _ [] List.nodup_nil
  intro acc p hacc
  exact nodup_foldl_of_step _ (fun acc2 c h => nodup_add_if_new h) _ acc hacc

theorem nodup_fourfold (s : NPSystem) : (get_four_fold_hollow_site s).Nodup := by
  unfold get_four_fold_hollow_site
  refine nodup_foldl_of_step _ ?_ _ [] List.nodup_nil
  intro acc pq hacc
  unfold fourfold_step
  dsimp only
  split
  · split
    · split
      · exact nodup_add_if_new hacc
      · exact hacc
    · exact hacc
  · exact hacc

theorem nodup_bridge {s : NPSystem} (h : nodupNbrs s) :
    (get_brige_site_indices s).Nodup := by
  unfold get_brige_site_indices
  rw [List.nodup_flatMap]
  constructor
  · intro a _
    refine List.Nodup.map ?_ ((nodup_sortList (nodup_surface_neighbors h a)).filter _)
    intro b1 b2 hb
    injection hb
  · refine (nodup_surface_indices s).imp ?_
    intro a a' hne x hx hx'
    obtain ⟨b, _, heq⟩ := List.mem_map.mp hx
    obtain ⟨b', _, heq'⟩ := List.mem_map.mp hx'
    apply hne
    injection heq.trans heq'.symm with h1 h2

theorem intersect1d_len_zero_iff {a b c d : Nat} :
    (intersect1d [a, b] [c, d]).length = 0 ↔
      ¬(a = c ∨ a = d ∨ b = c ∨ b = d) := by
  rw [List.length_eq_zero, intersect1d_eq_nil_iff]
  constructor
  · intro h hcase
    rcases hcase with rfl | rfl | rfl | rfl
    · exact h a ⟨by simp, by simp⟩
    · exact h a ⟨by simp, by simp⟩
    · exact h b ⟨by simp, by simp⟩
    · exact h b ⟨by simp, by simp⟩
  · rintro h x ⟨hx1, hx2⟩
    simp only [List.mem_cons, List.not_mem_nil, or_false] at hx1 hx2
    apply h
    rcases hx1 with rfl | rfl <;> rcases hx2 with rfl | rfl
    · exact Or.inl rfl
    · exact Or.inr (Or.inl rfl)
    · exact Or.inr (Or.inr (Or.inl rfl))
    · exact Or.inr (Or.inr (Or.inr rfl))

theorem mem_guarded_add {p q r : Prop} [Decidable p] [Decidable q] [Decidable r]
    {acc : List (List Nat)} {t x : List Nat} :
    (x ∈ if p then (if q then (if r then add_if_new acc t else acc) else acc) else acc) ↔
      x ∈ acc ∨ (p ∧ q ∧ r ∧ x = t) := by
  by_cases hp : p <;> by_cases hq : q <;> by_cases hr : r <;>
    simp [hp, hq, hr, mem_add_if_new]

theorem fourfold_check_iff {s : NPSystem} {a b c d : Nat} (hcd : c ≠ d) :
    ((intersect1d (surface_neighbors s a) [c, d]).length = 1 ∧
        (intersect1d (surface_neighbors s b) [c, d]).length = 1) ∧
      intersect1d (surface_neighbors s a) [c, d] ≠
        intersect1d (surface_neighbors s b) [c, d] ↔
      acceptFourFold s a b c d := by
  rw [intersect1d_pair (surface_neighbors s a) hcd,
    intersect1d_pair (surface_neighbors s b) hcd]
  by_cases h1 : c ∈ surface_neighbors s a <;> by_cases h2 : d ∈ surface_neighbors s a <;>
    by_cases h3 : c ∈ surface_neighbors s b <;> by_cases h4 : d ∈ surface_neighbors s b <;>
      simp [h1, h2, h3, h4, acceptFourFold, length_sortList_pair, hcd, Ne.symm hcd]

theorem mem_fourfold_iff {s : NPSystem} {x : List Nat} :
    x ∈ get_four_fold_hollow_site s ↔
      ∃ a b c d, ((a, b), (c, d)) ∈ pairsAfter (get_brige_site_indices s) ∧
        ¬(a = c ∨ a = d ∨ b = c ∨ b = d) ∧ acceptFourFold s a b c d ∧
        x = sortList [a, b, c, d] := by
  have hstep : ∀ (acc : List (List Nat)) (pq : (Nat × Nat) × (Nat × Nat)),
      pq ∈ pairsAfter (get_brige_site_indices s) → ∀ y,
      y ∈ fourfold_step s acc pq ↔ y ∈ acc ∨
        (¬(pq.1.1 = pq.2.1 ∨ pq.1.1 = pq.2.2 ∨ pq.1.2 = pq.2.1 ∨ pq.1.2 = pq.2.2) ∧
          acceptFourFold s pq.1.1 pq.1.2 pq.2.1 pq.2.2 ∧
          y = sortList [pq.1.1, pq.1.2, pq.2.1, pq.2.2]) := by
    intro acc pq hpq y
    obtain ⟨⟨a, b⟩, c, d⟩ := pq
    have hcd : c ≠ d := Nat.ne_of_lt (bridge_lt (mem_pairsAfter hpq).2)
    unfold fourfold_step
    dsimp only
    rw [mem_guarded_add]
    constructor
    · rintro (hy | ⟨hp, hq, hr, rfl⟩)
      · exact Or.inl hy
      · exact Or.inr ⟨intersect1d_len_zero_iff.1 hp,
          (fourfold_check_iff hcd).1 ⟨hq, hr⟩, rfl⟩
    · rintro (hy | ⟨hdis, hacc, rfl⟩)
      · exact Or.inl hy
      · obtain ⟨hq, hr⟩ := (fourfold_check_iff hcd).2 hacc
        exact Or.inr ⟨intersect1d_len_zero_iff.2 hdis, hq, hr, rfl⟩
  unfold get_four_fold_hollow_site
  rw [mem_foldl_of_step _ _ _ hstep [] x]
  simp only [List.not_mem_nil, false_or]
  constructor
  · rintro ⟨⟨⟨a, b⟩, c, d⟩, hpq, hq⟩
    exact ⟨a, b, c, d, hpq, hq⟩
  · rintro ⟨a, b, c, d, hpq, hq⟩
    exact ⟨((a, b), (c, d)), hpq, hq⟩

theorem count_eq_one_of_mem_lawful {α : Type} [BEq α] [LawfulBEq α] {l : List α} {p : α}
    (hnd : l.Nodup) (hmem : p ∈ l) : List.count p l = 1 := by
  induction l with
  | nil => cases hmem
  | cons q l ih =>
    obtain ⟨hq, hl⟩ := List.nodup_cons.mp hnd
    rw [List.count_cons]
    rcases List.mem_cons.mp hmem with rfl | hm
    · have hz : List.count p l = 0 := List.count_eq_zero.mpr hq
      simp [hz]
    · have hpq : p ≠ q := fun h => hq (h ▸ hm)
      rw [ih hl hm]
      simp [hpq, Ne.symm hpq]

theorem bridge_mem_surface {s : NPSystem} {a b : Nat}
    (h : (a, b) ∈ get_brige_site_indices s) :
    a ∈ surface_indices s ∧ b ∈ surface_indices s := by
  obtain ⟨ha, hb, _⟩ := mem_bridge.mp h
  exact ⟨ha, (mem_surface_neighbors.mp hb).2⟩

/-- C1: with a symmetric neighbor graph (whose per-atom neighbor sets are
duplicate-free, as the data model requires), the bridge enumeration emits
`(a, b)` exactly when `a` and `b` are mutually surface-neighboring and
`a < b`, and each such unordered pair appears exactly once, smaller index
first. -/
theorem bridge_enumeration_correct (s : NPSystem)
    (hsym : symmetricNbrs s) (hnd : nodupNbrs s) :
    (∀ a b, (a, b) ∈ get_brige_site_indices s ↔
      mutualSurfaceNeighbors s a b ∧ a < b) ∧
    (∀ a b, mutualSurfaceNeighbors s a b → a < b →
      List.count (a, b) (get_brige_site_indices s) = 1) := by
  constructor
  · intro a b
    rw [mem_bridge]
    constructor
    · rintro ⟨ha, hb, hlt⟩
      have hbsurf : b ∈ surface_indices s := (mem_surface_neighbors.mp hb).2
      have hanb : a ∈ neighbors_of s b :=
        symmetricNbrs_all hsym a b (mem_surface_neighbors.mp hb).1
      exact ⟨⟨ha, hbsurf, hb, mem_surface_neighbors.mpr ⟨hanb, ha⟩⟩, hlt⟩
    · rintro ⟨⟨ha, _, hb, _⟩, hlt⟩
      exact ⟨ha, hb, hlt⟩
  · intro a b hm hlt
    exact count_eq_one_of_mem_lawful (nodup_bridge hnd)
      (mem_bridge.mpr ⟨hm.1, hm.2.2.1, hlt⟩)

/-- Concrete instantiation of the bridge-enumeration theorem on the
triangular facet. -/
theorem bridge_enumeration_correct_witness :
    symmetricNbrs triangleSystem ∧ nodupNbrs triangleSystem ∧
      mutualSurfaceNeighbors triangleSystem 0 1 ∧
      List.count ((0 : Nat), (1 : Nat)) (get_brige_site_indices triangleSystem) = 1 :=
  ⟨by decide, by decide, by decide,
    (bridge_enumeration_correct triangleSystem (by decide) (by decide)).2 0 1
      (by decide) (by decide)⟩

/-- C2: a tuple is a 4-fold hollow site exactly when it is the sorted
quadruple of two vertex-disjoint bridge pairs, taken in enumeration
order, whose endpoints satisfy the acceptance condition (each endpoint of
the first bridge is surface-adjacent to exactly one endpoint of the
second, and not to the same one); the output carries no duplicates. -/
theorem fourfold_enumeration_correct (s : NPSystem) :
    (∀ x, x ∈ get_four_fold_hollow_site s ↔
      ∃ a b c d, ((a, b), (c, d)) ∈ pairsAfter (get_brige_site_indices s) ∧
        ¬(a = c ∨ a = d ∨ b = c ∨ b = d) ∧
        acceptFourFold s a b c d ∧ x = sortList [a, b, c, d]) ∧
    (get_four_fold_hollow_site s).Nodup :=
  ⟨fun _ => mem_fourfold_iff, nodup_fourfold s⟩

/-- C3: the 3-fold hollow result contains exactly the sorted triples
`[a, b, c]` with `(a, b)` a bridge pair and `c` a common surface-neighbor
of `a` and `b`, each appearing at most once. -/
theorem hollow_enumeration_correct (s : NPSystem) :
    (∀ t, t ∈ get_hollow_site_indices s ↔
      ∃ a b, (a, b) ∈ get_brige_site_indices s ∧
        ∃ c, c ∈ surface_neighbors s a ∧ c ∈ surface_neighbors s b ∧
          t = sortList [a, b, c]) ∧
    (get_hollow_site_indices s).Nodup :=
  ⟨fun _ => mem_hollow_iff, nodup_hollow s⟩

/-- C4: an atom is surface exactly when its coordination number is
strictly below 12; each neighbor of a surface atom is classified as
surface-neighbor when it is itself surface and as subsurface-neighbor
otherwise, and the two classifications partition its neighbor list. -/
theorem surface_partition_correct (s : NPSystem) :
    (∀ i, i ∈ surface_indices s ↔
      i < s.coordination.length ∧ s.coordination.getD i 0 < 12) ∧
    (∀ a, a ∈ surface_indices s → ∀ x, x ∈ neighbors_of s a →
      ((x ∈ surface_neighbors s a ↔ x ∈ surface_indices s) ∧
        (x ∈ subsurface_neighbors s a ↔ x ∉ surface_indices s))) ∧
    (∀ a, a ∈ surface_indices s →
      (surface_neighbors s a ++ subsurface_neighbors s a).Perm (neighbors_of s a)) := by
  refine ⟨fun i => mem_surface_indices, ?_, ?_⟩
  · intro a _ x hx
    constructor
    · rw [mem_surface_neighbors]
      exact ⟨fun h => h.2, fun h => ⟨hx, h⟩⟩
    · rw [mem_subsurface_neighbors]
      exact ⟨fun h => h.2, fun h => ⟨hx, h⟩⟩
  · intro a _
    have hsub : subsurface_neighbors s a =
        (neighbors_of s a).filter (fun n => !(decide (n ∈ surface_indices s))) := by
      unfold subsurface_neighbors
      simp only [decide_not]
    rw [hsub]
    exact List.filter_append_perm _ (neighbors_of s a)

/-- Concrete instantiation of the surface-partition theorem on the
triangular facet. -/
theorem surface_partition_correct_witness :
    (0 : Nat) ∈ surface_indices triangleSystem ∧
      (1 : Nat) ∈ neighbors_of triangleSystem 0 ∧
      (((1 : Nat) ∈ surface_neighbors triangleSystem 0 ↔
          (1 : Nat) ∈ surface_indices triangleSystem) ∧
        ((1 : Nat) ∈ subsurface_neighbors triangleSystem 0 ↔
          (1 : Nat) ∉ surface_indices triangleSystem)) ∧
      (surface_neighbors triangleSystem 0 ++
        subsurface_neighbors triangleSystem 0).Perm (neighbors_of triangleSystem 0) :=
  ⟨by decide, by decide,
    (surface_partition_correct triangleSystem).2.1 0 (by decide) 1 (by decide),
    (surface_partition_correct triangleSystem).2.2 0 (by decide)⟩

/-- C5: on well-formed input (duplicate-free neighbor sets, as the data
model requires), none of the three result sequences contains a duplicate
tuple; the hollow-site outputs are duplicate-free for every input. -/
theorem results_nodup (s : NPSystem) (hnd : nodupNbrs s) :
    (get_brige_site_indices s).Nodup ∧ (get_hollow_site_indices s).Nodup ∧
      (get_four_fold_hollow_site s).Nodup :=
  ⟨nodup_bridge hnd, nodup_hollow s, nodup_fourfold s⟩

/-- Concrete instantiation of the no-duplicates theorem on the triangular
facet. -/
theorem results_nodup_witness :
    nodupNbrs triangleSystem ∧
      ((get_brige_site_indices triangleSystem).Nodup ∧
        (get_hollow_site_indices triangleSystem).Nodup ∧
        (get_four_fold_hollow_site triangleSystem).Nodup) :=
  ⟨by decide, results_nodup triangleSystem (by decide)⟩

/-- C6: on the minimal 4-atom square facet the bridge enumeration yields
exactly the pairs `{[0,1],[1,2],[2,3],[0,3]}` (in enumeration order
`[0,1],[0,3],[1,2],[2,3]`), no 3-fold hollow site, and exactly the one
4-fold hollow site `[0,1,2,3]`. -/
theorem square_scenario :
    get_brige_site_indices squareSystem = [(0, 1), (0, 3), (1, 2), (2, 3)] ∧
      get_hollow_site_indices squareSystem = [] ∧
      get_four_fold_hollow_site squareSystem = [[0, 1, 2, 3]] := by
  decide

/-- C7: on the minimal 3-atom triangular facet the bridge enumeration
yields exactly the pairs `{[0,1],[0,2],[1,2]}`, exactly the one 3-fold
hollow site `[0,1,2]`, and no 4-fold hollow site. -/
theorem triangle_scenario :
    get_brige_site_indices triangleSystem = [(0, 1), (0, 2), (1, 2)] ∧
      get_hollow_site_indices triangleSystem = [[0, 1, 2]] ∧
      get_four_fold_hollow_site triangleSystem = [] := by
  decide

/-- C8: when every coordination number is at least 12 the surface set is
empty (hence both neighbor mappings, keyed by surface atoms, are empty)
and all three enumerations return empty results. -/
theorem bulk_degenerate (s : NPSystem)
    (h : ∀ i < s.coordination.length, 12 ≤ s.coordination.getD i 0) :
    surface_indices s = [] ∧ get_brige_site_indices s = [] ∧
      get_hollow_site_indices s = [] ∧ get_four_fold_hollow_site s = [] := by
  have hs : surface_indices s = [] := by
    rw [surface_indices, List.filter_eq_nil_iff]
    intro i hi
    simp only [decide_eq_true_eq]
    exact Nat.not_lt.mpr (h i (List.mem_range.mp hi))
  have hb : get_brige_site_indices s = [] := by
    rw [get_brige_site_indices, hs]
    rfl
  refine ⟨hs, hb, ?_, ?_⟩
  · rw [get_hollow_site_indices, hb]
    rfl
  · rw [get_four_fold_hollow_site, hb]
    rfl

/-- Concrete instantiation of the degenerate-case theorem on a fully
coordinated two-atom structure. -/
theorem bulk_degenerate_witness :
    (∀ i < bulkSystem.coordination.length, 12 ≤ bulkSystem.coordination.getD i 0) ∧
      (surface_indices bulkSystem = [] ∧ get_brige_site_indices bulkSystem = [] ∧
        get_hollow_site_indices bulkSystem = [] ∧
        get_four_fold_hollow_site bulkSystem = []) :=
  ⟨by decide, bulk_degenerate bulkSystem (by decide)⟩

/-- C9: every atom index appearing in any emitted bridge, 3-fold hollow
or 4-fold hollow tuple belongs to the surface set, and every surface atom
has coordination number strictly below 12. -/
theorem emitted_atoms_are_surface (s : NPSystem) :
    (∀ p ∈ get_brige_site_indices s,
      p.1 ∈ surface_indices s ∧ p.2 ∈ surface_indices s) ∧
    (∀ t ∈ get_hollow_site_indices s, ∀ i ∈ t, i ∈ surface_indices s) ∧
    (∀ t ∈ get_four_fold_hollow_site s, ∀ i ∈ t, i ∈ surface_indices s) ∧
    (∀ i ∈ surface_indices s, s.coordination.getD i 0 < 12) := by
  refine ⟨?_, ?_, ?_, ?_⟩
  · rintro ⟨a, b⟩ hp
    exact bridge_mem_surface hp
  · intro t ht i hi
    obtain ⟨a, b, hab, c, hca, hcb, rfl⟩ := mem_hollow_iff.mp ht
    rw [mem_sortList] at hi
    simp only [List.mem_cons, List.not_mem_nil, or_false] at hi
    rcases hi with rfl | rfl | rfl
    · exact (bridge_mem_surface hab).1
    · exact (bridge_mem_surface hab).2
    · exact (mem_surface_neighbors.mp hca).2
  · intro t ht i hi
    obtain ⟨a, b, c, d, hpq, _, _, rfl⟩ := mem_fourfold_iff.mp ht
    obtain ⟨hab, hcd⟩ := mem_pairsAfter hpq
    rw [mem_sortList] at hi
    simp only [List.mem_cons, List.not_mem_nil, or_false] at hi
    rcases hi with rfl | rfl | rfl | rfl
    · exact (bridge_mem_surface hab).1
    · exact (bridge_mem_surface hab).2
    · exact (bridge_mem_surface hcd).1
    · exact (bridge_mem_surface hcd).2
  · intro i hi
    exact (mem_surface_indices.mp hi).2

/-- Concrete instantiation of the surface-membership invariant on the
triangular facet. -/
theorem emitted_atoms_are_surface_witness :
    ((0 : Nat), (1 : Nat)) ∈ get_brige_site_indices triangleSystem ∧
      ((0 : Nat) ∈ surface_indices triangleSystem ∧
        (1 : Nat) ∈ surface_indices triangleSystem) :=
  ⟨by decide, (emitted_atoms_are_surface triangleSystem).1 (0, 1) (by decide)⟩

/-- C10: with a symmetric, irreflexive neighbor graph every emitted
3-fold hollow triple has length 3, is strictly increasing (so its indices
are pairwise distinct), and its atoms are pairwise mutually
surface-neighboring, forming a triangle in the surface-neighbor graph. -/
theorem hollow_triples_are_triangles (s : NPSystem)
    (hsym : symmetricNbrs s) (hirr : irreflNbrs s) :
    ∀ t ∈ get_hollow_site_indices s,
      t.length = 3 ∧ t.Pairwise (· < ·) ∧
        ∀ u ∈ t, ∀ v ∈ t, u ≠ v → mutualSurfaceNeighbors s u v := by
  intro t ht
  obtain ⟨a, b, hab, c, hca, hcb, rfl⟩ := mem_hollow_iff.mp ht
  have hlt : a < b := bridge_lt hab
  have hasurf : a ∈ surface_indices s := (mem_bridge.mp hab).1
  have hbnb : b ∈ surface_neighbors s a := (mem_bridge.mp hab).2.1
  have hbsurf : b ∈ surface_indices s := (mem_surface_neighbors.mp hbnb).2
  have hcsurf : c ∈ surface_indices s := (mem_surface_neighbors.mp hca).2
  have hirr2 : ∀ i, i ∉ neighbors_of s i := by
    intro i hi
    exact hirr i (mem_neighbors_of_lt hi) hi
  have hca2 : c ∈ neighbors_of s a := (mem_surface_neighbors.mp hca).1
  have hcb2 : c ∈ neighbors_of s b := (mem_surface_neighbors.mp hcb).1
  have hne_ab : a ≠ b := Nat.ne_of_lt hlt
  have hne_ca : c ≠ a := fun h => hirr2 a (h ▸ hca2)
  have hne_cb : c ≠ b := fun h => hirr2 b (h ▸ hcb2)
  have hnd : ([a, b, c] : List Nat).Nodup := by
    simp [hne_ab, Ne.symm hne_ca, Ne.symm hne_cb]
  have hmab : mutualSurfaceNeighbors s a b :=
    ⟨hasurf, hbsurf, hbnb, mem_surface_neighbors.mpr
      ⟨symmetricNbrs_all hsym a b (mem_surface_neighbors.mp hbnb).1, hasurf⟩⟩
  have hmac : mutualSurfaceNeighbors s a c :=
    ⟨hasurf, hcsurf, hca, mem_surface_neighbors.mpr
      ⟨symmetricNbrs_all hsym a c hca2, hasurf⟩⟩
  have hmbc : mutualSurfaceNeighbors s b c :=
    ⟨hbsurf, hcsurf, hcb, mem_surface_neighbors.mpr
      ⟨symmetricNbrs_all hsym b c hcb2, hbsurf⟩⟩
  have hmsymm : ∀ u v, mutualSurfaceNeighbors s u v → mutualSurfaceNeighbors s v u := by
    rintro u v ⟨h1, h2, h3, h4⟩
    exact ⟨h2, h1, h4, h3⟩
  refine ⟨(sortList_perm [a, b, c]).length_eq, ?_, ?_⟩
  · exact List.Sorted.lt_of_le (sortList_sorted [a, b, c]) (nodup_sortList hnd)
  · intro u hu v hv huv
    rw [mem_sortList] at hu hv
    simp only [List.mem_cons, List.not_mem_nil, or_false] at hu hv
    rcases hu with rfl | rfl | rfl <;> rcases hv with rfl | rfl | rfl
    · exact absurd rfl huv
    · exact hmab
    · exact hmac
    · exact hmsymm _ _ hmab
    · exact absurd rfl huv
    · exact hmbc
    · exact hmsymm _ _ hmac
    · exact hmsymm _ _ hmbc
    · exact absurd rfl huv

/-- Concrete instantiation of the triangle-shape theorem on the
triangular facet. -/
theorem hollow_triples_are_triangles_witness :
    symmetricNbrs triangleSystem ∧ irreflNbrs triangleSystem ∧
      [0, 1, 2] ∈ get_hollow_site_indices triangleSystem ∧
      (([0, 1, 2] : List Nat).length = 3 ∧
        ([0, 1, 2] : List Nat).Pairwise (· < ·) ∧
        ∀ u ∈ ([0, 1, 2] : List Nat), ∀ v ∈ ([0, 1, 2] : List Nat), u ≠ v →
          mutualSurfaceNeighbors triangleSystem u v) :=
  ⟨by decide, by decide, by decide,
    hollow_triples_are_triangles triangleSystem (by decide) (by decide)
      [0, 1, 2] (by decide)⟩
